import Mathlib

/-!
Verification of the locallite inference gateway against its specification.

The definitions below are shallow embeddings of the Python sources:
* `src/ai-gateway/src/runtime/embedding_backends/onnx_backend.py`
  (LRU cache `_cache_get` / `_cache_put`, `OnnxEmbeddingBackend.embed`),
* `src/ai-gateway/src/embedding_engine.py`
  (`_select_optimal_provider`, `OptimizedEmbeddingEngine.encode`),
* `src/ai-gateway/src/chat/gemma_model.py`
  (`_select_next_token`, `_apply_stop_sequences`, `GemmaChatModel.generate`),
* `src/ai-gateway/src/model_router.py` (`create_embeddings` route).

Machine floats are modelled by exact rationals/reals; a float produced by an
IEEE division with zero divisor (NaN / infinity) is modelled as `none` in
`Option ℝ`.  Wall-clock timing fields of the perf maps are elided.  ONNX
sessions, tokenizers and the numpy PRNG are modelled as oracle parameters:
the functions of the source are translated exactly, with every call into one
of those external components replaced by an application of the corresponding
oracle argument.
-/

namespace Locallite

/-- Python exceptions that the modelled embedding code can raise. -/
inductive PyErr where
  | nameErrorTime   -- `NameError: name 'time' is not defined` (missing import)
  | indexError      -- `[v for idx, v in cache_hits if idx == i][0]` on empty list
  | valueErrorEmpty -- `ValueError("Input texts cannot be empty")`
  deriving DecidableEq, Repr

/-! ## LRU cache (`OnnxEmbeddingBackend._cache_get` / `_cache_put`)

The Python `OrderedDict` is modelled as an association list whose order is
the recency order: the head is the least-recently-used entry, the last
element is the most-recently-used one.  `move_to_end` is remove-and-append;
`popitem(last=False)` removes the head.  `cache_size` is a natural number
(the constructor normalises `None` to `0`, and `<= 0` means disabled). -/

/-- Remove every binding of key `k` (dict assignment overwrites the key). -/
def cache_remove {V : Type} (k : String) (s : List (String × V)) :
    List (String × V) :=
  s.filter (fun p => p.1 ≠ k)

/-- `_cache_get`: `None` when disabled or missing; on a hit the entry is
promoted to the most-recently-used position (`move_to_end`).  Returns the
looked-up value together with the mutated cache. -/
def cache_get {V : Type} (C : Nat) (s : List (String × V)) (k : String) :
    Option V × List (String × V) :=
  if C = 0 then (none, s)
  else
    match s.find? (fun p => p.1 = k) with
    | none => (none, s)
    | some pv => (some pv.2, cache_remove k s ++ [(k, pv.2)])

/-- `_cache_put`: no-op when disabled; otherwise insert at the
most-recently-used end (`self._cache[key] = vec` followed by
`move_to_end`) and evict the least-recently-used entry
(`popitem(last=False)`) when the size exceeds the capacity. -/
def cache_put {V : Type} (C : Nat) (s : List (String × V)) (k : String)
    (v : V) : List (String × V) :=
  if C = 0 then s
  else
    let s1 := cache_remove k s ++ [(k, v)]
    if C < s1.length then s1.drop 1 else s1

/-- The keys currently stored in the cache. -/
def cache_keys {V : Type} (s : List (String × V)) : List String :=
  s.map Prod.fst

/-- One client-visible cache operation. -/
inductive CacheOp (V : Type) where
  | get (k : String)
  | put (k : String) (v : V)

/-- Effect of one operation on the cache state. -/
def cache_step {V : Type} (C : Nat) (s : List (String × V)) :
    CacheOp V → List (String × V)
  | .get k => (cache_get C s k).2
  | .put k v => cache_put C s k v

/-- State of the cache after an arbitrary interleaving of operations,
starting from the empty cache of a fresh backend. -/
def cache_run {V : Type} (C : Nat) (ops : List (CacheOp V)) :
    List (String × V) :=
  ops.foldl (cache_step C) []

lemma length_filter_lt_of_mem {α : Type} (l : List α) (p : α → Bool) (a : α)
    (ha : a ∈ l) (hpa : p a = false) : (l.filter p).length < l.length := by
  induction l with
  | nil => cases ha
  | cons x xs ih =>
    rcases List.mem_cons.mp ha with h | h
    · subst h
      simp only [List.filter, hpa]
      exact Nat.lt_succ_of_le (List.length_filter_le p xs)
    · simp only [List.filter]
      cases hx : p x
      · exact Nat.lt_succ_of_lt (ih h)
      · simpa using Nat.succ_lt_succ (ih h)

lemma cache_remove_length_le {V : Type} (k : String) (s : List (String × V)) :
    (cache_remove k s).length ≤ s.length :=
  List.length_filter_le _ s

lemma cache_remove_length_lt {V : Type} (k : String) (s : List (String × V))
    (pv : String × V) (h : s.find? (fun p => p.1 = k) = some pv) :
    (cache_remove k s).length < s.length := by
  have hmem : pv ∈ s := List.mem_of_find?_eq_some h
  have hp : (pv.1 = k) := by
    have := List.find?_some h
    simpa using this
  apply length_filter_lt_of_mem s _ pv hmem
  simp [hp]

lemma cache_get_length_le {V : Type} (C : Nat) (s : List (String × V))
    (k : String) : ((cache_get C s k).2).length ≤ s.length := by
  unfold cache_get
  split
  · simp
  · cases hf : s.find? (fun p => p.1 = k) with
    | none => simp
    | some pv =>
      simp only [List.length_append, List.length_cons, List.length_nil]
      have := cache_remove_length_lt k s pv hf
      omega

lemma cache_put_length_le {V : Type} (C : Nat) (s : List (String × V))
    (k : String) (v : V) (hs : s.length ≤ C) :
    (cache_put C s k v).length ≤ C := by
  unfold cache_put
  split
  · exact hs
  · dsimp only
    have h1 : (cache_remove k s ++ [(k, v)]).length ≤ s.length + 1 := by
      have := cache_remove_length_le k s
      simp only [List.length_append, List.length_cons, List.length_nil]
      omega
    split
    · rename_i hgt
      simp only [List.length_drop]
      omega
    · rename_i hle
      omega

lemma cache_step_length_le {V : Type} (C : Nat) (s : List (String × V))
    (op : CacheOp V) (hs : s.length ≤ C) :
    (cache_step C s op).length ≤ C := by
  cases op with
  | get k => exact le_trans (cache_get_length_le C s k) hs
  | put k v => exact cache_put_length_le C s k v hs

lemma cache_run_length_le {V : Type} (C : Nat) (ops : List (CacheOp V)) :
    (cache_run C ops).length ≤ C := by
  have main : ∀ (ops : List (CacheOp V)) (s : List (String × V)),
      s.length ≤ C → (ops.foldl (cache_step C) s).length ≤ C := by
    intro ops
    induction ops with
    | nil => intro s hs; simpa using hs
    | cons op rest ih =>
      intro s hs
      exact ih _ (cache_step_length_le C s op hs)
  exact main ops [] (by simp)

lemma cache_remove_of_not_mem {V : Type} (k : String) (s : List (String × V))
    (h : k ∉ cache_keys s) : cache_remove k s = s := by
  induction s with
  | nil => rfl
  | cons p rest ih =>
    have hk : p.1 ≠ k := by
      intro he
      exact h (by simp [cache_keys, he])
    have hrest : k ∉ cache_keys rest := by
      intro hm
      exact h (by simp [cache_keys] at hm ⊢; exact Or.inr hm)
    simp [cache_remove, hk, cache_remove] at ih ⊢
    exact ih hrest

/-- C5: every part of the LRU contract of `_cache_get` / `_cache_put`:
size bound under arbitrary interleavings, promotion to MRU on a hit,
strict LRU eviction, and the disabled behaviour at capacity `0`. -/
theorem c5_lru_invariants :
    (∀ (V : Type) (C : Nat) (ops : List (CacheOp V)),
        (cache_run C ops).length ≤ C)
  ∧ (∀ (V : Type) (C : Nat) (s : List (String × V)) (k : String) (v : V)
        (s' : List (String × V)), cache_get C s k = (some v, s') →
        s'.getLast? = some (k, v))
  ∧ (∀ (V : Type) (C : Nat) (s : List (String × V)) (k : String) (v : V),
        0 < C → s.length = C → k ∉ cache_keys s →
        cache_put C s k v = s.drop 1 ++ [(k, v)])
  ∧ (∀ (V : Type) (s : List (String × V)) (k : String) (v : V),
        cache_get 0 s k = (none, s) ∧ cache_put 0 s k v = s) := by
  refine ⟨?_, ?_, ?_, ?_⟩
  · intro V C ops
    exact cache_run_length_le C ops
  · intro V C s k v s' h
    unfold cache_get at h
    split at h
    · exact absurd (congrArg Prod.fst h) (by simp)
    · cases hf : s.find? (fun p => p.1 = k) with
      | none => rw [hf] at h; exact absurd (congrArg Prod.fst h) (by simp)
      | some pv =>
        rw [hf] at h
        have hv : pv.2 = v := by
          have := congrArg Prod.fst h
          simpa using this
        have hs' : s' = cache_remove k s ++ [(k, pv.2)] := by
          have := congrArg Prod.snd h
          simpa using this.symm
        rw [hs', hv]
        simp
  · intro V C s k v hC hlen hkey
    unfold cache_put
    rw [if_neg (by omega)]
    have hrem : cache_remove k s = s := cache_remove_of_not_mem k s hkey
    simp only [hrem]
    rw [if_pos (by simp; omega)]
    have hs : s ≠ [] := by
      intro he
      rw [he] at hlen
      simp at hlen
      omega
    rw [List.drop_append_of_le_length (by omega)]
  · intro V s k v
    constructor
    · unfold cache_get; simp
    · unfold cache_put; simp

/-- Witness for C5 at concrete inputs: a put on a full capacity-1 cache
evicts the least-recently-used (head) entry, and capacity 0 disables the
cache. -/
theorem c5_lru_invariants_witness :
    (0 < 1 ∧ ([("a", (7 : Nat))] : List (String × Nat)).length = 1
      ∧ "b" ∉ cache_keys [("a", (7 : Nat))]
      ∧ cache_put 1 [("a", (7 : Nat))] "b" 9 = [("b", 9)])
  ∧ cache_get 0 [("a", (7 : Nat))] "b" = (none, [("a", 7)]) := by
  refine ⟨⟨Nat.one_pos, by decide, by decide, ?_⟩, ?_⟩
  · have h := c5_lru_invariants.2.2.1 Nat 1 [("a", (7 : Nat))] "b" 9
      Nat.one_pos (by decide) (by decide)
    rw [h]
    decide
  · exact (c5_lru_invariants.2.2.2 Nat [("a", (7 : Nat))] "b" 9).1

/-! ## `OnnxEmbeddingBackend.embed`

`embed` partitions the inputs into cache hits and misses by calling
`_cache_get` on each text in order (a hit mutates the cache by promoting the
entry).  If any miss exists, the next executed statement is
`start = time.perf_counter()`; the module `onnx_backend.py` never imports
`time`, so this raises `NameError` before the engine is invoked and before
any `_cache_put`.  When there are no misses, the vectors are reassembled in
input order from `cache_hits` and the engine's last perf map is augmented
with cache statistics.  The engine is modelled only through the value
`last_perf` of `self._engine.last_performance() or {}` because the
`encode` call is unreachable. -/

/-- The partition loop `for idx, t in enumerate(texts_list)` of `embed`,
threading the cache state through the `_cache_get` promotions.  Returns
`(cache_hits, misses, cache)`. -/
def embed_scan {V : Type} (C : Nat) :
    List (String × V) → List (Nat × String) →
    List (Nat × V) × List (Nat × String) × List (String × V)
  | s, [] => ([], [], s)
  | s, (i, t) :: rest =>
    match cache_get C s t with
    | (some v, s') =>
      let r := embed_scan C s' rest
      ((i, v) :: r.1, r.2.1, r.2.2)
    | (none, s') =>
      let r := embed_scan C s' rest
      (r.1, (i, t) :: r.2.1, r.2.2)

/-- The perf map produced by `embed` (`{**perf, "cache_enabled": ..., ...}`);
`base` carries the engine perf dict, whose wall-clock fields are opaque
here.  `hit_rate` models `cache_hit_ratio = hit_count / total`. -/
structure EmbedPerf (P : Type) where
  base : P
  cache_enabled : Bool
  cache_size : Nat
  cache_hits : Nat
  cache_misses : Nat
  hit_rate : ℚ

/-- `OnnxEmbeddingBackend.embed` on a loaded backend: the result of the call
(`EmbeddingResult` or raised exception) together with the cache state left
behind on the instance. -/
def embed {V P : Type} (C : Nat) (s : List (String × V)) (texts : List String)
    (last_perf : P) :
    Except PyErr (List V × EmbedPerf P) × List (String × V) :=
  let r := embed_scan C s texts.enum
  let hits := r.1
  let misses := r.2.1
  let s' := r.2.2
  if misses.length ≠ 0 then
    -- `start = time.perf_counter()` with the name `time` unbound: NameError
    (.error .nameErrorTime, s')
  else
    -- reassembly: `[v for idx, v in cache_hits if idx == i][0]` for each i
    let lookups := (List.range texts.length).map
      (fun i => ((hits.filter (fun p => p.1 = i)).map Prod.snd).head?)
    if lookups.all Option.isSome then
      (.ok (lookups.reduceOption,
        { base := last_perf
          cache_enabled := decide (0 < C)
          cache_size := C
          cache_hits := hits.length
          cache_misses := misses.length
          hit_rate := (hits.length : ℚ) / (max texts.length 1 : ℚ) }), s')
    else (.error .indexError, s')

lemma mem_keys_cache_remove {V : Type} (k k' : String)
    (s : List (String × V)) :
    k' ∈ cache_keys (cache_remove k s) ↔ (k' ∈ cache_keys s ∧ k' ≠ k) := by
  simp only [cache_keys, cache_remove, List.mem_map, List.mem_filter,
    decide_eq_true_eq]
  constructor
  · rintro ⟨a, ⟨ha, hpa⟩, rfl⟩
    exact ⟨⟨a, ha, rfl⟩, hpa⟩
  · rintro ⟨⟨a, ha, rfl⟩, hne⟩
    exact ⟨a, ⟨ha, hne⟩, rfl⟩

lemma cache_get_keys_mem {V : Type} (C : Nat) (s : List (String × V))
    (k k' : String) :
    k' ∈ cache_keys (cache_get C s k).2 ↔ k' ∈ cache_keys s := by
  unfold cache_get
  split
  · simp
  · cases hf : s.find? (fun p => p.1 = k) with
    | none => simp
    | some pv =>
      have hk : pv.1 = k := by
        have := List.find?_some hf
        simpa using this
      have hmem : k ∈ cache_keys s := by
        have : pv ∈ s := List.mem_of_find?_eq_some hf
        exact List.mem_map.mpr ⟨pv, this, hk⟩
      simp only [cache_keys, List.map_append, List.mem_append]
      rw [show (cache_remove k s).map Prod.fst = cache_keys (cache_remove k s)
        from rfl]
      constructor
      · rintro (h | h)
        · exact ((mem_keys_cache_remove k k' s).mp h).1
        · simp at h
          rw [h]
          exact hmem
      · intro h
        by_cases hkk : k' = k
        · right; simp [hkk]
        · left; exact (mem_keys_cache_remove k k' s).mpr ⟨h, hkk⟩

lemma cache_get_some_key_mem {V : Type} (C : Nat) (s : List (String × V))
    (k : String) (v : V) (s' : List (String × V))
    (h : cache_get C s k = (some v, s')) : k ∈ cache_keys s := by
  unfold cache_get at h
  split at h
  · exact absurd (congrArg Prod.fst h) (by simp)
  · cases hf : s.find? (fun p => p.1 = k) with
    | none => rw [hf] at h; exact absurd (congrArg Prod.fst h) (by simp)
    | some pv =>
      have hk : pv.1 = k := by
        have := List.find?_some hf
        simpa using this
      exact List.mem_map.mpr ⟨pv, List.mem_of_find?_eq_some hf, hk⟩

lemma embed_scan_keys_mem {V : Type} (C : Nat) :
    ∀ (pairs : List (Nat × String)) (s : List (String × V)) (k' : String),
      k' ∈ cache_keys (embed_scan C s pairs).2.2 ↔ k' ∈ cache_keys s := by
  intro pairs
  induction pairs with
  | nil => intro s k'; simp [embed_scan]
  | cons p rest ih =>
    intro s k'
    obtain ⟨i, t⟩ := p
    rw [show embed_scan C s ((i, t) :: rest) =
      match cache_get C s t with
      | (some v, s') =>
        let r := embed_scan C s' rest
        ((i, v) :: r.1, r.2.1, r.2.2)
      | (none, s') =>
        let r := embed_scan C s' rest
        (r.1, (i, t) :: r.2.1, r.2.2) from rfl]
    cases hc : cache_get C s t with
    | mk o s' =>
      have hs' : ∀ k'', k'' ∈ cache_keys s' ↔ k'' ∈ cache_keys s := by
        intro k''
        have := cache_get_keys_mem C s t k''
        rw [hc] at this
        exact this
      cases o with
      | some v => simpa using (ih s' k').trans (hs' k')
      | none => simpa using (ih s' k').trans (hs' k')

lemma embed_scan_misses_ne_nil {V : Type} (C : Nat) :
    ∀ (pairs : List (Nat × String)) (s : List (String × V)),
      (∃ p ∈ pairs, p.2 ∉ cache_keys s) →
      (embed_scan C s pairs).2.1 ≠ [] := by
  intro pairs
  induction pairs with
  | nil =>
    intro s h
    obtain ⟨p, hp, _⟩ := h
    cases hp
  | cons q rest ih =>
    intro s h
    obtain ⟨j, u⟩ := q
    rw [show embed_scan C s ((j, u) :: rest) =
      match cache_get C s u with
      | (some v, s') =>
        let r := embed_scan C s' rest
        ((j, v) :: r.1, r.2.1, r.2.2)
      | (none, s') =>
        let r := embed_scan C s' rest
        (r.1, (j, u) :: r.2.1, r.2.2) from rfl]
    cases hc : cache_get C s u with
    | mk o s' =>
      cases o with
      | none => simp
      | some v =>
        obtain ⟨p, hp, hnot⟩ := h
        rcases List.mem_cons.mp hp with heq | hmem
        · exfalso
          apply hnot
          rw [heq]
          exact cache_get_some_key_mem C s u v s' hc
        · have hnot' : p.2 ∉ cache_keys s' := by
            intro hmem'
            apply hnot
            have := cache_get_keys_mem C s u p.2
            rw [hc] at this
            exact this.mp hmem'
          simpa using ih s' ⟨p, hmem, hnot'⟩

lemma mem_enumFrom_snd {α : Type} :
    ∀ (l : List α) (n : Nat) (t : α), t ∈ l →
      ∃ i, (i, t) ∈ List.enumFrom n l := by
  intro l
  induction l with
  | nil => intro n t ht; cases ht
  | cons x xs ih =>
    intro n t ht
    rcases List.mem_cons.mp ht with h | h
    · exact ⟨n, by simp [List.enumFrom, h]⟩
    · obtain ⟨i, hi⟩ := ih (n + 1) t h
      exact ⟨i, by simp only [List.enumFrom]; exact List.mem_cons_of_mem _ hi⟩

lemma mem_enum_snd {α : Type} (l : List α) (t : α) (ht : t ∈ l) :
    ∃ i, (i, t) ∈ l.enum :=
  mem_enumFrom_snd l 0 t ht

lemma embed_snd {V P : Type} (C : Nat) (s : List (String × V))
    (texts : List String) (lp : P) :
    (embed C s texts lp).2 = (embed_scan C s texts.enum).2.2 := by
  unfold embed
  dsimp only
  split
  · rfl
  · split <;> rfl

lemma embed_error_of_miss {V P : Type} (C : Nat) (s : List (String × V))
    (texts : List String) (lp : P)
    (h : ∃ t ∈ texts, t ∉ cache_keys s) :
    (embed C s texts lp).1 = Except.error PyErr.nameErrorTime := by
  obtain ⟨t, ht, hnot⟩ := h
  obtain ⟨i, hi⟩ := mem_enum_snd texts t ht
  have hmiss : (embed_scan C s texts.enum).2.1 ≠ [] :=
    embed_scan_misses_ne_nil C texts.enum s ⟨(i, t), hi, hnot⟩
  unfold embed
  dsimp only
  rw [if_pos (by simpa [List.length_eq_zero] using hmiss)]

/-- C1 (the code at the claim's failing input): on a fresh backend, `embed`
on the single-text batch `["hello"]` raises `NameError` (`time` is never
imported) instead of returning one vector of the declared dimension; the
claim's successful path is unreachable for every valid request because the
cache can only be populated by `embed` itself, after the failing statement. -/
theorem c1_embed_crashes_on_valid_request :
    ∀ (P : Type) (C : Nat) (lp : P),
      (embed (V := List ℚ) C [] ["hello"] lp).1 =
        Except.error PyErr.nameErrorTime := by
  intro P C lp
  exact embed_error_of_miss C [] ["hello"] lp
    ⟨"hello", by simp, by simp [cache_keys]⟩

/-- C3: whenever at least one input text is not stored in the cache, `embed`
raises the `NameError` caused by the missing `time` import: no vectors are
returned, and the key set of the cache is unchanged (no entry is ever
inserted; hits merely promote existing entries).  In particular the very
first `embed` call on a fresh backend never succeeds. -/
theorem c3_embed_raises_name_error :
    (∀ (V P : Type) (C : Nat) (s : List (String × V)) (texts : List String)
        (lp : P), (∃ t ∈ texts, t ∉ cache_keys s) →
        (embed C s texts lp).1 = Except.error PyErr.nameErrorTime
        ∧ (∀ k, k ∈ cache_keys (embed C s texts lp).2 ↔ k ∈ cache_keys s))
  ∧ (∀ (V P : Type) (C : Nat) (texts : List String) (lp : P), texts ≠ [] →
        (embed (V := V) C [] texts lp).1 =
          Except.error PyErr.nameErrorTime) := by
  constructor
  · intro V P C s texts lp h
    refine ⟨embed_error_of_miss C s texts lp h, ?_⟩
    intro k
    rw [embed_snd]
    exact embed_scan_keys_mem C texts.enum s k
  · intro V P C texts lp h
    cases texts with
    | nil => exact absurd rfl h
    | cons x rest =>
      exact embed_error_of_miss C [] (x :: rest) lp
        ⟨x, List.mem_cons_self x rest, by simp [cache_keys]⟩

/-- Witness for C3 at a concrete input: the first call on a fresh backend
with one uncached text raises the `NameError` and leaves the cache empty. -/
theorem c3_embed_raises_name_error_witness :
    (∃ t ∈ ["hi"], t ∉ cache_keys ([] : List (String × Nat)))
    ∧ (embed (V := Nat) (P := Unit) 8 [] ["hi"] ()).1 =
        Except.error PyErr.nameErrorTime := by
  have hex : ∃ t ∈ ["hi"], t ∉ cache_keys ([] : List (String × Nat)) :=
    ⟨"hi", by simp, by simp [cache_keys]⟩
  exact ⟨hex,
    (c3_embed_raises_name_error.1 Nat Unit 8 [] ["hi"] () hex).1⟩

/-! ## `OptimizedEmbeddingEngine.encode` — pooling and L2 normalization

Float arithmetic is modelled over `ℝ`.  An IEEE division is `none` when the
divisor is zero (NaN or infinity — in the relevant uses the numerator is a
component of a vector whose norm is the divisor, so a zero divisor forces a
zero numerator and the float result is NaN). -/

/-- IEEE float division, `none` standing for a non-finite result. -/
noncomputable def div_ieee (x y : ℝ) : Option ℝ :=
  if y = 0 then none else some (x / y)

/-- Sum of squares of the components. -/
noncomputable def sum_sq (v : List ℝ) : ℝ := (v.map (fun x => x ^ 2)).sum

/-- `np.linalg.norm`: the Euclidean norm of a vector. -/
noncomputable def l2_norm (v : List ℝ) : ℝ := Real.sqrt (sum_sq v)

/-- Batch path of `encode` per row (`norms[norms == 0] = 1.0` then
`cls_embeddings / norms`): the zero norm is replaced by `1` before
dividing. -/
noncomputable def batch_normalize_row (v : List ℝ) : List (Option ℝ) :=
  let n := l2_norm v
  let n2 := if n = 0 then 1 else n
  v.map (fun x => div_ieee x n2)

/-- Per-text fallback path of `encode` (`cls = cls / np.linalg.norm(cls)`):
no zero-norm guard. -/
noncomputable def per_text_normalize (v : List ℝ) : List (Option ℝ) :=
  v.map (fun x => div_ieee x (l2_norm v))

/-- Placeholder of the per-text fallback when even single-row inference
fails: `fallback = np.random.normal(0, 0.1, 384)` (the process-global,
unseeded numpy PRNG — the input text is not an argument), then
`fallback / np.linalg.norm(fallback)`.  `draw` is the sequence of floats
the PRNG produced for this call. -/
noncomputable def placeholder_vector (draw : List ℝ) : List (Option ℝ) :=
  draw.map (fun x => div_ieee x (l2_norm draw))

/-- All components of the float vector are finite (no NaN / infinity). -/
def all_finite (v : List (Option ℝ)) : Prop := ∀ x ∈ v, x ≠ none

/-- The real values of a float vector with all components finite. -/
def opt_vals (v : List (Option ℝ)) : List ℝ := v.reduceOption

lemma sum_sq_nil : sum_sq [] = 0 := by simp [sum_sq]

lemma sum_sq_cons (x : ℝ) (v : List ℝ) :
    sum_sq (x :: v) = x ^ 2 + sum_sq v := by simp [sum_sq]

lemma sum_sq_nonneg (v : List ℝ) : 0 ≤ sum_sq v := by
  induction v with
  | nil => simp [sum_sq_nil]
  | cons x xs ih =>
    rw [sum_sq_cons]
    have := sq_nonneg x
    linarith

lemma l2_norm_eq_zero_iff (v : List ℝ) : l2_norm v = 0 ↔ sum_sq v = 0 := by
  unfold l2_norm
  constructor
  · intro h
    have h2 := congrArg (fun t => t ^ 2) h
    simp only [Real.sq_sqrt (sum_sq_nonneg v)] at h2
    simpa using h2
  · intro h
    rw [h, Real.sqrt_zero]

lemma sq_l2_norm (v : List ℝ) : (l2_norm v) ^ 2 = sum_sq v :=
  Real.sq_sqrt (sum_sq_nonneg v)

lemma sum_sq_map_div (v : List ℝ) (c : ℝ) :
    sum_sq (v.map (fun x => x / c)) = sum_sq v / c ^ 2 := by
  induction v with
  | nil => simp [sum_sq_nil]
  | cons x xs ih =>
    simp only [List.map_cons, sum_sq_cons, ih, div_pow, add_div]

lemma normalize_all_finite (v : List ℝ) (n : ℝ) (hn : n ≠ 0) :
    all_finite (v.map (fun x => div_ieee x n)) := by
  intro x hx
  obtain ⟨y, _, rfl⟩ := List.mem_map.mp hx
  simp [div_ieee, hn]

lemma opt_vals_normalize (v : List ℝ) (n : ℝ) (hn : n ≠ 0) :
    opt_vals (v.map (fun x => div_ieee x n)) = v.map (fun x => x / n) := by
  unfold opt_vals
  induction v with
  | nil => simp
  | cons x xs ih =>
    simp only [List.map_cons]
    rw [show div_ieee x n = some (x / n) from by simp [div_ieee, hn],
      List.reduceOption_cons_of_some, ih]

lemma l2_norm_self_div_unit (v : List ℝ) (h : l2_norm v ≠ 0) :
    l2_norm (v.map (fun x => x / l2_norm v)) = 1 := by
  have hs : sum_sq v ≠ 0 := fun hc => h ((l2_norm_eq_zero_iff v).mpr hc)
  have h1 : sum_sq (v.map (fun x => x / l2_norm v)) = 1 := by
    rw [sum_sq_map_div, sq_l2_norm, div_self hs]
  rw [show l2_norm (v.map (fun x => x / l2_norm v)) =
    Real.sqrt (sum_sq (v.map (fun x => x / l2_norm v))) from rfl, h1,
    Real.sqrt_one]

/-- C2 counterexample: on the per-text fallback path a zero-norm pooled
vector does not pass through unchanged — the unguarded division
`cls / np.linalg.norm(cls)` produces NaN components. -/
theorem c2_zero_norm_nan_counterexample :
    per_text_normalize [(0 : ℝ)] = [none]
    ∧ per_text_normalize [(0 : ℝ)] ≠ [(0 : ℝ)].map some := by
  have h0 : l2_norm [(0 : ℝ)] = 0 := by
    rw [l2_norm_eq_zero_iff]
    simp [sum_sq_cons, sum_sq_nil]
  constructor
  · simp [per_text_normalize, h0, div_ieee]
  · simp [per_text_normalize, h0, div_ieee]

/-- C2 amended: the batch path L2-normalizes every row with nonzero norm,
passes zero-norm rows through unchanged and never produces NaN; the
per-text fallback path L2-normalizes rows with nonzero norm, but a
zero-norm row becomes an all-NaN vector instead of passing through. -/
theorem c2_l2_normalization :
    ∀ v : List ℝ,
      (l2_norm v = 0 → batch_normalize_row v = v.map some)
    ∧ (l2_norm v ≠ 0 →
        all_finite (batch_normalize_row v)
        ∧ l2_norm (opt_vals (batch_normalize_row v)) = 1
        ∧ all_finite (per_text_normalize v)
        ∧ l2_norm (opt_vals (per_text_normalize v)) = 1)
    ∧ (l2_norm v = 0 → ∀ x ∈ per_text_normalize v, x = none) := by
  intro v
  refine ⟨?_, ?_, ?_⟩
  · intro h0
    unfold batch_normalize_row
    rw [h0]
    simp [div_ieee]
  · intro hne
    have hb : batch_normalize_row v = v.map (fun x => div_ieee x (l2_norm v)) := by
      unfold batch_normalize_row
      dsimp only
      rw [if_neg hne]
    refine ⟨?_, ?_, ?_, ?_⟩
    · rw [hb]; exact normalize_all_finite v _ hne
    · rw [hb, opt_vals_normalize v _ hne]
      exact l2_norm_self_div_unit v hne
    · exact normalize_all_finite v _ hne
    · unfold per_text_normalize
      rw [opt_vals_normalize v _ hne]
      exact l2_norm_self_div_unit v hne
  · intro h0 x hx
    unfold per_text_normalize at hx
    obtain ⟨y, _, rfl⟩ := List.mem_map.mp hx
    simp [div_ieee, h0]

/-- Witness for C2's amended statement on the concrete row `[3, 4]`
(norm 5): both paths produce finite unit-norm vectors. -/
theorem c2_l2_normalization_witness :
    l2_norm [(3 : ℝ), 4] ≠ 0
    ∧ l2_norm (opt_vals (batch_normalize_row [(3 : ℝ), 4])) = 1
    ∧ l2_norm (opt_vals (per_text_normalize [(3 : ℝ), 4])) = 1 := by
  have h25 : sum_sq [(3 : ℝ), 4] = 25 := by
    rw [sum_sq_cons, sum_sq_cons, sum_sq_nil]
    norm_num
  have h5 : l2_norm [(3 : ℝ), 4] = 5 := by
    unfold l2_norm
    rw [h25, show (25 : ℝ) = 5 ^ 2 by norm_num,
      Real.sqrt_sq (by norm_num : (0 : ℝ) ≤ 5)]
  have hne : l2_norm [(3 : ℝ), 4] ≠ 0 := by rw [h5]; norm_num
  have h := (c2_l2_normalization [(3 : ℝ), 4]).2.1 hne
  exact ⟨hne, h.2.1, h.2.2.2⟩

/-! ## Provider selection (`_select_optimal_provider`) and `encode` -/

/-- `self.NPU_OPTIMAL_BATCH_SIZE` of `OptimizedEmbeddingEngine`. -/
def NPU_OPTIMAL_BATCH_SIZE : Nat := 3

/-- `_select_optimal_provider`: sessions are identified by a flag
(`false` = `session_cpu`, the always-present primary; `true` =
`session_npu`, the optional Azure alternate, available iff `hasAlt`).
Returns the session flag and the provider tag. -/
def select_optimal_provider (hasAlt : Bool) (batch_size : Nat) :
    Bool × String :=
  if batch_size ≤ NPU_OPTIMAL_BATCH_SIZE then (false, "CPU-ARM64")
  else if hasAlt then (true, "Azure")
  else (false, "CPU-ARM64")

/-- The perf fields of `encode` relevant here (`performance_info`);
wall-clock and token-count fields are elided. -/
structure EncodePerf where
  provider : String
  batch_size : Nat

/-- `OptimizedEmbeddingEngine.encode`.  `run` models `session.run` on the
session chosen by `_select_optimal_provider` (first argument: the session
flag); its result is the last hidden state, shaped batch × seq × hidden.
`tokenize` models `_tokenize_batch` (one abstract row per text), `draws i`
models the floats `np.random.normal(0, 0.1, 384)` produces at the
placeholder for text `i`. -/
noncomputable def encode {T : Type} (hasAlt : Bool)
    (run : Bool → List T → Except Unit (List (List (List ℝ))))
    (tokenize : List String → List T)
    (draws : Nat → List ℝ)
    (texts : List String) :
    Except PyErr (List (List (Option ℝ)) × EncodePerf) :=
  if texts.length = 0 then .error .valueErrorEmpty
  else
    let sel := select_optimal_provider hasAlt texts.length
    let rows := tokenize texts
    let embeddings : List (List (Option ℝ)) :=
      match run sel.1 rows with
      | .ok last_hidden_state =>
        -- `cls_embeddings = last_hidden_state[:, 0, :]`, then guarded L2 rows
        last_hidden_state.map (fun row => batch_normalize_row (row.headD []))
      | .error _ =>
        -- per-text fallback loop over `v[i : i + 1]` slices
        (List.range texts.length).map (fun i =>
          match run sel.1 ((rows.drop i).take 1) with
          | .ok out => per_text_normalize ((out.headD []).headD [])
          | .error _ => placeholder_vector (draws i))
    .ok (embeddings, { provider := sel.2, batch_size := texts.length })

/-- C4: provider selection is a function of batch size only — batch ≤ 3
selects the primary (CPU-ARM64) session, batch ≥ 4 the alternate (Azure)
when present, otherwise the primary — and `encode` reports the selected
tag in the perf `provider` field. -/
theorem c4_provider_selection :
    (∀ (hasAlt : Bool) (n : Nat),
        (n ≤ 3 → select_optimal_provider hasAlt n = (false, "CPU-ARM64"))
      ∧ (4 ≤ n → select_optimal_provider hasAlt n =
          (hasAlt, if hasAlt then "Azure" else "CPU-ARM64")))
  ∧ (∀ (T : Type) (hasAlt : Bool)
        (run : Bool → List T → Except Unit (List (List (List ℝ))))
        (tokenize : List String → List T) (draws : Nat → List ℝ)
        (texts : List String), texts ≠ [] →
        ∃ vecs perf,
          encode hasAlt run tokenize draws texts = .ok (vecs, perf)
          ∧ perf.provider =
              (select_optimal_provider hasAlt texts.length).2) := by
  constructor
  · intro hasAlt n
    constructor
    · intro h
      unfold select_optimal_provider NPU_OPTIMAL_BATCH_SIZE
      rw [if_pos h]
    · intro h
      unfold select_optimal_provider NPU_OPTIMAL_BATCH_SIZE
      rw [if_neg (by omega)]
      cases hasAlt <;> simp
  · intro T hasAlt run tokenize draws texts hne
    unfold encode
    rw [if_neg (by simpa [List.length_eq_zero] using hne)]
    exact ⟨_, _, rfl, rfl⟩

/-- Witness for C4 at a concrete input: a single-text call reports the
primary provider tag. -/
theorem c4_provider_selection_witness :
    (["a"] ≠ ([] : List String))
    ∧ ∃ vecs perf,
        encode (T := Unit) false (fun _ _ => Except.error ())
          (fun _ => []) (fun _ => []) ["a"] = .ok (vecs, perf)
        ∧ perf.provider = "CPU-ARM64" := by
  have h := c4_provider_selection.2 Unit false (fun _ _ => Except.error ())
    (fun _ => []) (fun _ => []) ["a"] (by simp)
  obtain ⟨vecs, perf, heq, hp⟩ := h
  exact ⟨by simp, vecs, perf, heq, by rw [hp]; decide⟩

/-- C8 counterexample: the placeholder is a function of the unseeded global
PRNG draw (the input text is not even an argument of the expression), so
two runs whose PRNG produces different floats return different
placeholder vectors — it is not deterministic across runs. -/
theorem c8_placeholder_not_deterministic :
    placeholder_vector ((1 : ℝ) :: List.replicate 383 0)
      ≠ placeholder_vector ((0 : ℝ) :: 1 :: List.replicate 382 0) := by
  have hrep : ∀ n : Nat, sum_sq (List.replicate n (0 : ℝ)) = 0 := by
    intro n
    induction n with
    | zero => simp [sum_sq_nil]
    | succ m ih => rw [List.replicate_succ, sum_sq_cons, ih]; norm_num
  have h1 : l2_norm ((1 : ℝ) :: List.replicate 383 0) = 1 := by
    unfold l2_norm
    rw [sum_sq_cons, hrep]
    norm_num
  have h2 : l2_norm ((0 : ℝ) :: 1 :: List.replicate 382 0) = 1 := by
    unfold l2_norm
    rw [sum_sq_cons, sum_sq_cons, hrep]
    norm_num
  intro h
  have hh := congrArg List.head? h
  simp only [placeholder_vector, h1, h2, List.map_cons, List.head?_cons,
    div_ieee] at hh
  rw [if_neg one_ne_zero, if_neg one_ne_zero] at hh
  simp only [Option.some.injEq] at hh
  norm_num at hh

/-- C8 amended: the placeholder is the global unseeded PRNG draw divided by
its own norm — deterministic in the draw but not keyed on the input text —
and whenever the draw has nonzero norm it is a finite (non-NaN) unit
vector. -/
theorem c8_placeholder_unit_norm :
    ∀ draw : List ℝ, l2_norm draw ≠ 0 →
      all_finite (placeholder_vector draw)
      ∧ l2_norm (opt_vals (placeholder_vector draw)) = 1 := by
  intro draw hne
  constructor
  · exact normalize_all_finite draw _ hne
  · unfold placeholder_vector
    rw [opt_vals_normalize draw _ hne]
    exact l2_norm_self_div_unit draw hne

/-- Witness for C8's amended statement at the concrete draw `[1]`. -/
theorem c8_placeholder_unit_norm_witness :
    l2_norm [(1 : ℝ)] ≠ 0
    ∧ l2_norm (opt_vals (placeholder_vector [(1 : ℝ)])) = 1 := by
  have h1 : l2_norm [(1 : ℝ)] = 1 := by
    unfold l2_norm
    rw [sum_sq_cons, sum_sq_nil]
    norm_num
  have hne : l2_norm [(1 : ℝ)] ≠ 0 := by rw [h1]; norm_num
  exact ⟨hne, (c8_placeholder_unit_norm [(1 : ℝ)] hne).2⟩

/-! ## The `POST /v1/embeddings` route (`model_router.py`, `create_embeddings`) -/

/-- Request body `input`: bare string or list of strings. -/
inductive EmbInput where
  | single (s : String)
  | listOf (l : List String)

/-- Outcome of `await embedding_service.process_embeddings(texts, ...)`:
per-text embeddings (possibly `None` entries), `FileNotFoundError`, or any
other exception. -/
inductive ProcOutcome where
  | ok (embs : List (Option (List ℚ)))
  | fileNotFound
  | exc

/-- The body of the `try:` block of `create_embeddings`: a successful
response, or the raised `HTTPException (status_code, detail)`. -/
def create_embeddings_inner (svc_ready : Bool) (inp : EmbInput)
    (process : List String → ProcOutcome) :
    Except (Nat × String) (List (List ℚ)) :=
  if ¬ svc_ready then .error (503, "Embedding engine not available")
  else
    let texts := match inp with
      | .listOf l => l
      | .single s => [s]
    if texts = [] then .error (400, "Input cannot be empty")
    else
      match process texts with
      | .fileNotFound => .error (503, "Embedding model assets missing")
      | .exc => .error (500, "Embedding processing failed")
      | .ok embs =>
        if embs.any (fun e => e.isNone) then
          .error (500, "Failed to generate embedding")
        else .ok embs.reduceOption

/-- The complete route handler, returning the HTTP status the client sees:
the trailing `except Exception as e:` catches every exception raised inside
the `try:` block — `fastapi.HTTPException` subclasses `Exception` — and
re-raises `HTTP_500_INTERNAL_SERVER_ERROR`. -/
def create_embeddings (svc_ready : Bool) (inp : EmbInput)
    (process : List String → ProcOutcome) : Nat :=
  match create_embeddings_inner svc_ready inp process with
  | .ok _ => 200
  | .error _ => 500

/-- C9 (the code at the claim's failing input): for `input = []` the
handler raises `HTTPException(400, "Input cannot be empty")`, but its own
blanket `except Exception` clause swallows it and re-raises 500, so the
HTTP response status is 500, not 400 as the claim states. -/
theorem c9_empty_input_gets_500 :
    ∀ process : List String → ProcOutcome,
      create_embeddings_inner true (.listOf []) process =
        Except.error (400, "Input cannot be empty")
      ∧ create_embeddings true (.listOf []) process = 500
      ∧ create_embeddings true (.listOf []) process ≠ 400 := by
  intro process
  have hinner : create_embeddings_inner true (.listOf []) process =
      Except.error (400, "Input cannot be empty") := by
    unfold create_embeddings_inner
    simp
  have houter : create_embeddings true (.listOf []) process = 500 := by
    unfold create_embeddings
    rw [hinner]
  exact ⟨hinner, houter, by rw [houter]; decide⟩

/-! ## Nucleus (top-p) filtering (`_select_next_token`, temperature > 0)

The filter of lines 273–282 of `gemma_model.py` operates on the probability
vector `probs`; it is modelled here on exact rationals. -/

/-- Indexing `probs[i]` (always in range in the source). -/
def idx_val (l : List ℚ) (i : Nat) : ℚ := l.getD i 0

/-- Stable insertion of index `i` into an ascending-by-value index list. -/
def ins_asc (l : List ℚ) (i : Nat) : List Nat → List Nat
  | [] => [i]
  | j :: rest =>
    if idx_val l i < idx_val l j then i :: j :: rest
    else j :: ins_asc l i rest

/-- `np.argsort(probs)`: indices sorted by ascending value. -/
def argsort_asc (l : List ℚ) : List Nat :=
  (List.range l.length).foldr (ins_asc l) []

/-- `np.argsort(probs)[::-1]`: indices sorted by descending value. -/
def argsort_desc (l : List ℚ) : List Nat := (argsort_asc l).reverse

/-- `np.cumsum`. -/
def cumsum : List ℚ → List ℚ
  | [] => []
  | x :: xs => x :: (cumsum xs).map (fun c => x + c)

/-- Numpy boolean-mask indexing `a[mask]`. -/
def mask_select {α : Type} (l : List α) (m : List Bool) : List α :=
  ((l.zip m).filter (fun p => p.2)).map Prod.fst

/-- Lines 273–282 of `gemma_model.py`: `cutoff = cumulative <= top_p`,
`if not np.any(cutoff): cutoff[0] = True`, then boolean-mask selection and
renormalization.  Returns the kept token ids (the ids `rng.choice` can
return) and their renormalized sampling weights. -/
def top_p_filter (probs : List ℚ) (top_p : ℚ) : List Nat × List ℚ :=
  let sorted_indices := argsort_desc probs
  let sorted_probs := sorted_indices.map (idx_val probs)
  let cumulative := cumsum sorted_probs
  let cutoff := cumulative.map (fun c => decide (c ≤ top_p))
  let cutoff2 := if cutoff.any id then cutoff else cutoff.set 0 true
  let filtered_probs := mask_select sorted_probs cutoff2
  (mask_select sorted_indices cutoff2,
   filtered_probs.map (fun p => p / filtered_probs.sum))

/-- Length of the prefix the SPEC keeps: accumulate through the cumulative
sums until the running sum first exceeds `top_p`, the crossing element
included; keep everything when the sum never exceeds `top_p`. -/
def first_exceed_len : List ℚ → ℚ → Nat
  | [], _ => 0
  | c :: rest, t => if t < c then 1 else 1 + first_exceed_len rest t

/-- Modelled from the spec (§4.6): "sort indices by descending probability,
accumulate until the running sum first exceeds `top_p`, keep that prefix
(at least one token), renormalize, then sample". -/
def spec_nucleus_keep (probs : List ℚ) (top_p : ℚ) : List Nat × List ℚ :=
  let sorted_indices := argsort_desc probs
  let sorted_probs := sorted_indices.map (idx_val probs)
  let k := first_exceed_len (cumsum sorted_probs) top_p
  let kept_probs := sorted_probs.take k
  (sorted_indices.take k, kept_probs.map (fun p => p / kept_probs.sum))

/-- The number of tokens the CODE keeps: the count of cumulative sums that
are `≤ top_p`, with a floor of one. -/
def keep_count (probs : List ℚ) (t : ℚ) : Nat :=
  max 1 ((cumsum ((argsort_desc probs).map (idx_val probs))).countP
    (fun c => decide (c ≤ t)))

/-- The sorted probabilities of the tokens the code keeps. -/
def kept_probs (probs : List ℚ) (t : ℚ) : List ℚ :=
  ((argsort_desc probs).map (idx_val probs)).take (keep_count probs t)

/-- C6 counterexample: with probabilities `[1/2, 3/10, 1/5]` and
`top_p = 3/5` the code keeps only token 0 (cumulative 1/2 ≤ 3/5) while the
claimed smallest prefix first exceeding `top_p` is `[0, 1]`
(1/2 + 3/10 = 4/5 > 3/5): token 1 can never be returned by the code. -/
theorem c6_top_p_counterexample :
    (top_p_filter [1/2, 3/10, 1/5] (3/5)).1 = [0]
    ∧ (spec_nucleus_keep [1/2, 3/10, 1/5] (3/5)).1 = [0, 1]
    ∧ (1 : Nat) ∈ (spec_nucleus_keep [1/2, 3/10, 1/5] (3/5)).1
    ∧ (1 : Nat) ∉ (top_p_filter [1/2, 3/10, 1/5] (3/5)).1 := by
  have hcode : (top_p_filter [1/2, 3/10, 1/5] (3/5)).1 = [0] := by
    norm_num [top_p_filter, argsort_desc, argsort_asc, ins_asc, idx_val,
      List.range_succ, cumsum, mask_select]
  have hspec : (spec_nucleus_keep [1/2, 3/10, 1/5] (3/5)).1 = [0, 1] := by
    norm_num [spec_nucleus_keep, argsort_desc, argsort_asc, ins_asc, idx_val,
      List.range_succ, cumsum, first_exceed_len]
  refine ⟨hcode, hspec, by rw [hspec]; decide, by rw [hcode]; decide⟩

lemma mask_select_cons_true {α : Type} (a : α) (l : List α) (m : List Bool) :
    mask_select (a :: l) (true :: m) = a :: mask_select l m := by
  simp [mask_select]

lemma mask_select_cons_false {α : Type} (a : α) (l : List α) (m : List Bool) :
    mask_select (a :: l) (false :: m) = mask_select l m := by
  simp [mask_select]

lemma mask_select_all_false {α : Type} :
    ∀ (l : List α) (m : List Bool), (∀ b ∈ m, b = false) →
      mask_select l m = [] := by
  intro l
  induction l with
  | nil => intro m _; simp [mask_select]
  | cons a l ih =>
    intro m h
    cases m with
    | nil => simp [mask_select]
    | cons b mb =>
      have hb : b = false := h b (by simp)
      rw [hb, mask_select_cons_false]
      exact ih mb (fun c hc => h c (by simp [hc]))

lemma cumsum_nonneg :
    ∀ (xs : List ℚ), (∀ x ∈ xs, 0 ≤ x) → ∀ c ∈ cumsum xs, 0 ≤ c := by
  intro xs
  induction xs with
  | nil => intro _ c hc; simp [cumsum] at hc
  | cons x rest ih =>
    intro h c hc
    rw [show cumsum (x :: rest) = x :: (cumsum rest).map (fun c => x + c)
      from rfl] at hc
    have hx : 0 ≤ x := h x (by simp)
    rcases List.mem_cons.mp hc with h1 | h1
    · rw [h1]; exact hx
    · obtain ⟨c0, hc0, rfl⟩ := List.mem_map.mp h1
      have := ih (fun y hy => h y (by simp [hy])) c0 hc0
      linarith

lemma cumsum_length (xs : List ℚ) : (cumsum xs).length = xs.length := by
  induction xs with
  | nil => simp [cumsum]
  | cons x rest ih => simp [cumsum, ih]

lemma mask_select_cumsum {α : Type} :
    ∀ (xs : List ℚ) (idx : List α) (t : ℚ), (∀ x ∈ xs, 0 ≤ x) →
      idx.length = xs.length →
      mask_select idx ((cumsum xs).map (fun c => decide (c ≤ t)))
        = idx.take ((cumsum xs).countP (fun c => decide (c ≤ t))) := by
  intro xs
  induction xs with
  | nil =>
    intro idx t _ hlen
    simp [cumsum, mask_select]
  | cons x rest ih =>
    intro idx t h hlen
    cases idx with
    | nil => simp [cumsum] at hlen
    | cons a idx =>
      rw [show cumsum (x :: rest) = x :: (cumsum rest).map (fun c => x + c)
        from rfl, List.map_cons]
      have hrest : ∀ y ∈ rest, 0 ≤ y := fun y hy => h y (by simp [hy])
      have hmapmap :
          ((cumsum rest).map (fun c => x + c)).map (fun c => decide (c ≤ t))
            = (cumsum rest).map (fun c => decide (c ≤ t - x)) := by
        rw [List.map_map]
        apply List.map_congr_left
        intro c _
        simp only [Function.comp_apply]
        exact decide_eq_decide.mpr (by constructor <;> intro <;> linarith)
      have hcount :
          ((cumsum rest).map (fun c => x + c)).countP (fun c => decide (c ≤ t))
            = (cumsum rest).countP (fun c => decide (c ≤ t - x)) := by
        rw [List.countP_map]
        apply List.countP_congr
        intro c _
        simp only [Function.comp_apply, decide_eq_true_eq]
        constructor <;> intro <;> linarith
      by_cases hxt : x ≤ t
      · rw [show decide (x ≤ t) = true from decide_eq_true hxt]
        rw [mask_select_cons_true, hmapmap,
          List.countP_cons_of_pos _ _ (by simpa using hxt), hcount,
          List.take_succ_cons, ih idx (t - x) hrest (by simpa using hlen)]
      · rw [show decide (x ≤ t) = false from decide_eq_false hxt]
        rw [mask_select_cons_false, hmapmap]
        have hall : ∀ b ∈ (cumsum rest).map (fun c => decide (c ≤ t - x)),
            b = false := by
          intro b hb
          obtain ⟨c, hc, rfl⟩ := List.mem_map.mp hb
          have hc0 : 0 ≤ c := cumsum_nonneg rest hrest c hc
          push_neg at hxt
          exact decide_eq_false (by linarith)
        rw [mask_select_all_false _ _ hall,
          List.countP_cons_of_neg _ _ (by simpa using hxt), hcount,
          List.countP_eq_zero.mpr (by
            intro c hc
            have hc0 : 0 ≤ c := cumsum_nonneg rest hrest c hc
            push_neg at hxt
            simp only [decide_eq_true_eq]
            intro hcc
            linarith)]
        simp

lemma ins_asc_length (l : List ℚ) (i : Nat) :
    ∀ s : List Nat, (ins_asc l i s).length = s.length + 1 := by
  intro s
  induction s with
  | nil => simp [ins_asc]
  | cons j rest ih =>
    unfold ins_asc
    split
    · simp
    · simp [ih]

lemma foldr_ins_asc_length (l : List ℚ) :
    ∀ (is : List Nat) (acc : List Nat),
      (is.foldr (ins_asc l) acc).length = is.length + acc.length := by
  intro is
  induction is with
  | nil => intro acc; simp
  | cons i rest ih =>
    intro acc
    simp only [List.foldr_cons, ins_asc_length, ih, List.length_cons]
    omega

lemma argsort_desc_length (l : List ℚ) :
    (argsort_desc l).length = l.length := by
  unfold argsort_desc argsort_asc
  rw [List.length_reverse, foldr_ins_asc_length]
  simp

lemma getD_mem_or_eq_zero :
    ∀ (l : List ℚ) (i : Nat), l.getD i 0 ∈ l ∨ l.getD i 0 = 0 := by
  intro l
  induction l with
  | nil => intro i; right; simp
  | cons x xs ih =>
    intro i
    cases i with
    | zero => left; simp
    | succ n =>
      rcases ih n with h | h
      · left; simp only [List.getD_cons_succ]; exact List.mem_cons_of_mem _ h
      · right; simpa using h

lemma sum_map_div_q (l : List ℚ) (s : ℚ) :
    (l.map (fun p => p / s)).sum = l.sum / s := by
  induction l with
  | nil => simp
  | cons x xs ih => simp [ih, add_div]

/-- C6 amended: for nonnegative probabilities, the code keeps the LARGEST
descending-sorted prefix whose cumulative probability stays `≤ top_p` —
the token whose addition first exceeds `top_p` is excluded — with a floor
of one token, and the sampling weights are those prefix probabilities
renormalized (summing to 1 when the kept mass is positive). -/
theorem c6_nucleus_keeps_le :
    ∀ (probs : List ℚ) (t : ℚ), probs ≠ [] → (∀ x ∈ probs, 0 ≤ x) →
      (top_p_filter probs t).1 = (argsort_desc probs).take (keep_count probs t)
      ∧ (top_p_filter probs t).2 =
          (kept_probs probs t).map (fun p => p / (kept_probs probs t).sum)
      ∧ 1 ≤ keep_count probs t
      ∧ (0 < (kept_probs probs t).sum → ((top_p_filter probs t).2).sum = 1) := by
  intro probs t hne hnn
  have hsp_nonneg :
      ∀ x ∈ (argsort_desc probs).map (idx_val probs), 0 ≤ x := by
    intro x hx
    obtain ⟨i, _, rfl⟩ := List.mem_map.mp hx
    unfold idx_val
    rcases getD_mem_or_eq_zero probs i with h | h
    · exact hnn _ h
    · rw [h]
  have hlen_idx : (argsort_desc probs).length =
      ((argsort_desc probs).map (idx_val probs)).length := by simp
  have hlen_sp : ((argsort_desc probs).map (idx_val probs)).length =
      ((argsort_desc probs).map (idx_val probs)).length := rfl
  have hmain : (top_p_filter probs t).1 =
        (argsort_desc probs).take (keep_count probs t)
      ∧ (top_p_filter probs t).2 =
        (kept_probs probs t).map (fun p => p / (kept_probs probs t).sum) := by
    unfold top_p_filter
    dsimp only
    by_cases hany :
        (((cumsum ((argsort_desc probs).map (idx_val probs))).map
          (fun c => decide (c ≤ t))).any id) = true
    · -- some cumulative sum is ≤ t: the mask is untouched
      rw [if_pos hany]
      obtain ⟨b, hb, hbt⟩ := List.any_eq_true.mp hany
      obtain ⟨c, hc, rfl⟩ := List.mem_map.mp hb
      have hcnt : 1 ≤ (cumsum ((argsort_desc probs).map (idx_val probs))).countP
          (fun c => decide (c ≤ t)) := by
        have : 0 < (cumsum ((argsort_desc probs).map (idx_val probs))).countP
            (fun c => decide (c ≤ t)) :=
          List.countP_pos_iff.mpr ⟨c, hc, by simpa using hbt⟩
        omega
      have hk : keep_count probs t =
          (cumsum ((argsort_desc probs).map (idx_val probs))).countP
            (fun c => decide (c ≤ t)) := by
        unfold keep_count
        omega
      constructor
      · rw [mask_select_cumsum _ _ t hsp_nonneg hlen_idx, hk]
      · rw [mask_select_cumsum _ _ t hsp_nonneg hlen_sp]
        unfold kept_probs
        rw [hk]
    · -- every cumulative sum exceeds t: `cutoff[0] = True`
      rw [if_neg hany]
      have hallf : ∀ b ∈ ((cumsum ((argsort_desc probs).map (idx_val probs))).map
          (fun c => decide (c ≤ t))), b = false := by
        intro b hb
        cases hbv : b
        · rfl
        · exact absurd (List.any_eq_true.mpr ⟨b, hb, by simp [hbv]⟩) hany
      have hcnt0 : (cumsum ((argsort_desc probs).map (idx_val probs))).countP
          (fun c => decide (c ≤ t)) = 0 := by
        apply List.countP_eq_zero.mpr
        intro c hc
        have := hallf _ (List.mem_map.mpr ⟨c, hc, rfl⟩)
        simp only [decide_eq_true_eq] at this ⊢
        intro hct
        exact absurd (decide_eq_true hct) (by simp [this])
      have hk1 : keep_count probs t = 1 := by
        unfold keep_count
        omega
      unfold kept_probs
      rw [hk1]
      -- the index list is nonempty
      cases hsi : argsort_desc probs with
      | nil =>
        exfalso
        have := argsort_desc_length probs
        rw [hsi] at this
        exact hne (List.length_eq_zero.mp this.symm)
      | cons s0 si =>
        rw [hsi] at hallf
        simp only [List.map_cons] at hallf
        simp only [List.map_cons]
        rw [show cumsum (idx_val probs s0 :: si.map (idx_val probs)) =
          idx_val probs s0 ::
            (cumsum (si.map (idx_val probs))).map
              (fun c => idx_val probs s0 + c) from rfl] at hallf ⊢
        simp only [List.map_cons, List.set_cons_zero] at hallf ⊢
        have htail : ∀ b ∈ ((cumsum (si.map (idx_val probs))).map
            (fun c => idx_val probs s0 + c)).map (fun c => decide (c ≤ t)),
            b = false := by
          intro b hb
          exact hallf b (List.mem_cons_of_mem _ hb)
        constructor
        · rw [mask_select_cons_true, mask_select_all_false _ _ htail]
          simp [List.take_succ_cons]
        · rw [mask_select_cons_true, mask_select_all_false _ _ htail]
          simp [List.take_succ_cons]
  refine ⟨hmain.1, hmain.2, ?_, ?_⟩
  · unfold keep_count; omega
  · intro hpos
    rw [hmain.2, sum_map_div_q, div_self (ne_of_gt hpos)]

/-- Witness for C6's amended statement at concrete probabilities
`[7/10, 3/10]` with `top_p = 1/2`: even the top probability exceeds
`top_p`, so exactly one token is kept. -/
theorem c6_nucleus_keeps_le_witness :
    ([(7 : ℚ)/10, 3/10] ≠ []) ∧ (∀ x ∈ [(7 : ℚ)/10, 3/10], 0 ≤ x)
    ∧ (top_p_filter [(7 : ℚ)/10, 3/10] (1/2)).1 =
        (argsort_desc [(7 : ℚ)/10, 3/10]).take
          (keep_count [(7 : ℚ)/10, 3/10] (1/2))
    ∧ 1 ≤ keep_count [(7 : ℚ)/10, 3/10] (1/2) := by
  have hne : ([(7 : ℚ)/10, 3/10] ≠ []) := by simp
  have hnn : ∀ x ∈ [(7 : ℚ)/10, 3/10], 0 ≤ x := by
    intro x hx
    rcases List.mem_cons.mp hx with h | h
    · rw [h]; norm_num
    · simp at h; rw [h]; norm_num
  have h := c6_nucleus_keeps_le [(7 : ℚ)/10, 3/10] (1/2) hne hnn
  exact ⟨hne, hnn, h.1, h.2.2.1⟩

/-! ## Chat generation (`GemmaChatModel.generate` / `_select_next_token`)

Logit rows are rational vectors; `np.exp` is an oracle `e`, the per-backend
PRNG `self.rng` is a state of abstract type threaded through the `choice`
oracle (`rng.choice(ids, p=weights)`), the two ONNX sessions of
`_run_decoder_step` are one oracle `step` from (token-id row,
`position_offset`, past KV cache) to (last logits row, next KV cache), and
the tokenizer's `decode` is an oracle.  The batch dimension of size 1 is
elided. -/

/-- `self.eos_token_ids = (1, 106)` (from generation_config.json). -/
def eos_token_ids : List Nat := [1, 106]

/-- `self.max_context = 32768`. -/
def max_context : Nat := 32768

/-- `self.default_max_new_tokens = 256`. -/
def default_max_new_tokens : Nat := 256

/-- `np.argmax` over a row: index of the first maximal element. -/
def argmax_aux : List ℚ → Nat → Nat → ℚ → Nat
  | [], _, bi, _ => bi
  | x :: xs, i, bi, bv =>
    if bv < x then argmax_aux xs (i + 1) i x else argmax_aux xs (i + 1) bi bv

/-- `np.argmax(logits)`. -/
def argmax_idx : List ℚ → Nat
  | [] => 0
  | x :: xs => argmax_aux xs 1 0 x

/-- `np.max` of a nonempty row. -/
def list_max : List ℚ → ℚ
  | [] => 0
  | x :: xs => xs.foldl max x

/-- `_select_next_token(logits, temperature, top_p)`: greedy `argmax` when
`temperature` is `None` or ≤ 0 (the PRNG is not consulted); otherwise
temperature-scaled softmax (`e` standing for `np.exp`), then nucleus
filtering for `0 < top_p < 1`, then `rng.choice`. -/
def select_next_token {R : Type} (e : ℚ → ℚ)
    (choice : List Nat → List ℚ → R → Nat × R)
    (logits : List ℚ) (temperature : Option ℚ) (top_p : ℚ) (rng : R) :
    Nat × R :=
  match temperature with
  | none => (argmax_idx logits, rng)
  | some temp =>
    if temp ≤ 0 then (argmax_idx logits, rng)
    else
      let adjusted := logits.map (fun x => x / max temp (1 / 100000))
      let shifted := adjusted.map (fun x => x - list_max adjusted)
      let probs0 := shifted.map e
      let probs := probs0.map (fun p => p / probs0.sum)
      if 0 < top_p ∧ top_p < 1 then
        let fp := top_p_filter probs top_p
        choice fp.1 fp.2 rng
      else
        choice (List.range probs.length) probs rng

/-- `_apply_stop_sequences(text, stop_sequences)`: truncate at the first
occurrence of the first matching stop string. -/
def apply_stop_sequences : String → List String → String × Bool
  | text, [] => (text, false)
  | text, s :: rest =>
    if s ≠ "" ∧ 2 ≤ (text.splitOn s).length
    then ((text.splitOn s).headD text, true)
    else apply_stop_sequences text rest

/-- `ChatGeneration` (provider tag and metadata elided). -/
structure ChatGeneration where
  text : String
  tokens : Nat
  prompt_tokens : Nat
  finish_reason : String
  deriving DecidableEq, Repr

/-- Errors `generate` raises before running the decoder. -/
inductive GenError where
  | promptTooLong
  deriving DecidableEq, Repr

/-- `max_new_tokens = int(max_tokens or 256); if max_new_tokens <= 0:
max_new_tokens = 256` (absent and `0` both fall back to the default;
negative values cannot arise for the modelled `Nat` field). -/
def resolve_max_new_tokens : Option Nat → Nat
  | none => default_max_new_tokens
  | some k => if k = 0 then default_max_new_tokens else k

/-- The decode loop of `generate` (`for step in range(max_new_tokens)`),
with the remaining iteration budget as fuel.  State: current last-position
logits, KV cache, PRNG state, `generated_ids`, `total_length`,
`accumulated_text`.  Returns `(generated_ids, accumulated_text,
finish_reason, decoder steps executed inside the loop)`. -/
def gen_loop {K R : Type} (step : List Nat → Nat → K → List ℚ × K)
    (decode : List Nat → String) (e : ℚ → ℚ)
    (choice : List Nat → List ℚ → R → Nat × R)
    (temperature : Option ℚ) (top_p : ℚ) (stop_seqs : List String)
    (prompt_tokens : Nat) :
    Nat → List ℚ → K → R → List Nat → Nat → String →
      List Nat × String × String × Nat
  | 0, _, _, _, generated, _, _ =>
    -- `for`/`else`: budget exhausted without a break
    (generated, decode generated, "length", 0)
  | fuel + 1, logits, kv, rng, generated, total_length, acc =>
    let sel := select_next_token e choice logits temperature top_p rng
    let generated2 := generated ++ [sel.1]
    if sel.1 ∈ eos_token_ids then
      -- EOS: popped from `generated_ids`, `accumulated_text` unchanged
      (generated, acc, "stop", 0)
    else
      let ts := apply_stop_sequences (decode generated2) stop_seqs
      if ts.2 then (generated2, ts.1, "stop", 0)
      else
        if max_context ≤ total_length + 1 then (generated2, ts.1, "length", 0)
        else
          let st := step [sel.1] (prompt_tokens + generated2.length - 1) kv
          let r := gen_loop step decode e choice temperature top_p stop_seqs
            prompt_tokens fuel st.1 st.2 sel.2 generated2 (total_length + 1)
            ts.1
          (r.1, r.2.1, r.2.2.1, r.2.2.2 + 1)

/-- `GemmaChatModel.generate` from the encoded prompt ids onward: the
result (or the `ValueError` for an over-long prompt) together with the
number of decoder inference steps executed (prefill included). -/
def generate {K R : Type} (step : List Nat → Nat → K → List ℚ × K)
    (decode : List Nat → String) (e : ℚ → ℚ)
    (choice : List Nat → List ℚ → R → Nat × R) (init_kv : K)
    (input_ids : List Nat) (max_tokens : Option Nat) (temperature : ℚ)
    (top_p : ℚ) (stop_seqs : List String) (rng : R) :
    Except GenError ChatGeneration × Nat :=
  let prompt_token_count := input_ids.length
  if max_context ≤ prompt_token_count then
    -- `raise ValueError(f"Prompt too long ...")`, before any decoder step
    (.error .promptTooLong, 0)
  else
    let st := step input_ids 0 init_kv  -- prefill
    let r := gen_loop step decode e choice (some temperature) top_p stop_seqs
      prompt_token_count (resolve_max_new_tokens max_tokens) st.1 st.2 rng []
      prompt_token_count ""
    let acc := if r.2.1 = "" then decode r.1 else r.2.1
    (.ok { text := acc.trim, tokens := r.1.length,
           prompt_tokens := prompt_token_count,
           finish_reason := r.2.2.1 },
     r.2.2.2 + 1)

lemma select_next_token_greedy {R : Type} (e : ℚ → ℚ)
    (choice : List Nat → List ℚ → R → Nat × R) (logits : List ℚ)
    (t : Option ℚ) (p : ℚ) (rng : R)
    (h : t = none ∨ ∃ x, t = some x ∧ x ≤ 0) :
    select_next_token e choice logits t p rng = (argmax_idx logits, rng) := by
  rcases h with h | ⟨x, hx, hle⟩
  · rw [h]; rfl
  · rw [hx]
    simp only [select_next_token]
    rw [if_pos hle]

lemma gen_loop_greedy {K R1 R2 : Type} (step : List Nat → Nat → K → List ℚ × K)
    (decode : List Nat → String) (e1 e2 : ℚ → ℚ)
    (choice1 : List Nat → List ℚ → R1 → Nat × R1)
    (choice2 : List Nat → List ℚ → R2 → Nat × R2)
    (t : ℚ) (ht : t ≤ 0) (p : ℚ) (stops : List String) (pt : Nat) :
    ∀ (fuel : Nat) (logits : List ℚ) (kv : K) (r1 : R1) (r2 : R2)
      (gen : List Nat) (total : Nat) (acc : String),
      gen_loop step decode e1 choice1 (some t) p stops pt
          fuel logits kv r1 gen total acc
        = gen_loop step decode e2 choice2 (some t) p stops pt
          fuel logits kv r2 gen total acc := by
  intro fuel
  induction fuel with
  | zero => intro logits kv r1 r2 gen total acc; rfl
  | succ n ih =>
    intro logits kv r1 r2 gen total acc
    simp only [gen_loop]
    rw [select_next_token_greedy e1 choice1 logits (some t) p r1
        (Or.inr ⟨t, rfl, ht⟩),
      select_next_token_greedy e2 choice2 logits (some t) p r2
        (Or.inr ⟨t, rfl, ht⟩)]
    dsimp only
    by_cases heos : argmax_idx logits ∈ eos_token_ids
    · simp only [if_pos heos]
    · simp only [if_neg heos]
      by_cases hts : (apply_stop_sequences
          (decode (gen ++ [argmax_idx logits])) stops).2 = true
      · simp only [if_pos hts]
      · simp only [if_neg hts]
        by_cases hlen : max_context ≤ total + 1
        · simp only [if_pos hlen]
        · simp only [if_neg hlen]
          rw [ih]

/-- C7: when the resolved temperature is `None` or ≤ 0, `_select_next_token`
is the argmax of the logits row and does not consult the PRNG; hence two
runs of the generation loop on the same prompt with the same decoder
behave identically regardless of their PRNG states (and of the `np.exp`
and `rng.choice` implementations): greedy decoding is deterministic. -/
theorem c7_greedy_deterministic :
    (∀ (R : Type) (e : ℚ → ℚ) (choice : List Nat → List ℚ → R → Nat × R)
        (logits : List ℚ) (t : Option ℚ) (p : ℚ) (rng : R),
        (t = none ∨ ∃ x, t = some x ∧ x ≤ 0) →
        select_next_token e choice logits t p rng = (argmax_idx logits, rng))
  ∧ (∀ (K R1 R2 : Type) (step : List Nat → Nat → K → List ℚ × K)
        (decode : List Nat → String) (e1 e2 : ℚ → ℚ)
        (choice1 : List Nat → List ℚ → R1 → Nat × R1)
        (choice2 : List Nat → List ℚ → R2 → Nat × R2)
        (init_kv : K) (ids : List Nat) (mt : Option Nat) (t p : ℚ)
        (stops : List String) (rng1 : R1) (rng2 : R2), t ≤ 0 →
        generate step decode e1 choice1 init_kv ids mt t p stops rng1
          = generate step decode e2 choice2 init_kv ids mt t p stops rng2) := by
  constructor
  · intro R e choice logits t p rng h
    exact select_next_token_greedy e choice logits t p rng h
  · intro K R1 R2 step decode e1 e2 choice1 choice2 init_kv ids mt t p stops
      rng1 rng2 ht
    unfold generate
    dsimp only
    by_cases hlen : max_context ≤ ids.length
    · simp only [if_pos hlen]
    · simp only [if_neg hlen]
      rw [gen_loop_greedy step decode e1 e2 choice1 choice2 t ht p stops
        ids.length (resolve_max_new_tokens mt)
        (step ids 0 init_kv).1 (step ids 0 init_kv).2 rng1 rng2 []
        ids.length ""]

/-- Witness for C7 at a concrete instance (temperature 0, two distinct
PRNG state types and values). -/
theorem c7_greedy_deterministic_witness :
    ((0 : ℚ) ≤ 0)
    ∧ generate (fun _ _ (k : Unit) => ([(1 : ℚ)], k)) (fun _ => "") id
        (fun _ _ (r : Nat) => (0, r)) () [5] none 0 1 [] 0
      = generate (fun _ _ (k : Unit) => ([(1 : ℚ)], k)) (fun _ => "") id
        (fun _ _ (r : Bool) => (0, r)) () [5] none 0 1 [] true :=
  ⟨le_refl 0,
    c7_greedy_deterministic.2 Unit Nat Bool
      (fun _ _ k => ([(1 : ℚ)], k)) (fun _ => "") id id
      (fun _ _ r => (0, r)) (fun _ _ r => (0, r)) () [5] none 0 1 []
      0 true (le_refl 0)⟩

/-- C10: a prompt whose token count reaches the context limit (32768) fails
with the input-too-long `ValueError` before any decoder step runs (zero
decoder inferences, result independent of the decoder), and every prompt
strictly below the limit passes the check: generation proceeds (at least
the prefill step runs) and returns a result with the prompt's token
count. -/
theorem c10_prompt_context_limit :
    (∀ (K R : Type) (step : List Nat → Nat → K → List ℚ × K)
        (decode : List Nat → String) (e : ℚ → ℚ)
        (choice : List Nat → List ℚ → R → Nat × R) (init_kv : K)
        (ids : List Nat) (mt : Option Nat) (t p : ℚ) (stops : List String)
        (rng : R), max_context ≤ ids.length →
        generate step decode e choice init_kv ids mt t p stops rng
          = (Except.error GenError.promptTooLong, 0))
  ∧ (∀ (K R : Type) (step : List Nat → Nat → K → List ℚ × K)
        (decode : List Nat → String) (e : ℚ → ℚ)
        (choice : List Nat → List ℚ → R → Nat × R) (init_kv : K)
        (ids : List Nat) (mt : Option Nat) (t p : ℚ) (stops : List String)
        (rng : R), ids.length < max_context →
        (∃ g : ChatGeneration,
          (generate step decode e choice init_kv ids mt t p stops rng).1
            = .ok g
          ∧ g.prompt_tokens = ids.length)
        ∧ 1 ≤ (generate step decode e choice init_kv ids mt t p stops rng).2) := by
  constructor
  · intro K R step decode e choice init_kv ids mt t p stops rng h
    unfold generate
    dsimp only
    rw [if_pos h]
  · intro K R step decode e choice init_kv ids mt t p stops rng h
    unfold generate
    dsimp only
    rw [if_neg (not_le.mpr h)]
    exact ⟨⟨_, rfl, rfl⟩, by omega⟩

/-- Witness for C10 at the boundary: a 32768-token prompt is rejected with
zero decoder steps; a 32767-token prompt is accepted. -/
theorem c10_prompt_context_limit_witness :
    (max_context ≤ (List.replicate 32768 (0 : Nat)).length
      ∧ generate (fun _ _ (k : Unit) => ([(1 : ℚ)], k)) (fun _ => "") id
          (fun _ _ (r : Nat) => (0, r)) () (List.replicate 32768 0) none 0 1
          [] 0
        = (Except.error GenError.promptTooLong, 0))
    ∧ ((List.replicate 32767 (0 : Nat)).length < max_context
      ∧ ∃ g : ChatGeneration,
          (generate (fun _ _ (k : Unit) => ([(1 : ℚ)], k)) (fun _ => "") id
            (fun _ _ (r : Nat) => (0, r)) () (List.replicate 32767 0) none 0 1
            [] 0).1 = .ok g
          ∧ g.prompt_tokens = 32767) := by
  have h1 : max_context ≤ (List.replicate 32768 (0 : Nat)).length := by
    rw [List.length_replicate]
    exact Nat.le_refl _
  have h2 : (List.replicate 32767 (0 : Nat)).length < max_context := by
    rw [List.length_replicate]
    norm_num [max_context]
  constructor
  · exact ⟨h1, c10_prompt_context_limit.1 Unit Nat
      (fun _ _ k => ([(1 : ℚ)], k)) (fun _ => "") id (fun _ _ r => (0, r))
      () (List.replicate 32768 0) none 0 1 [] 0 h1⟩
  · obtain ⟨⟨g, hg, hpt⟩, _⟩ := c10_prompt_context_limit.2 Unit Nat
      (fun _ _ k => ([(1 : ℚ)], k)) (fun _ => "") id (fun _ _ r => (0, r))
      () (List.replicate 32767 0) none 0 1 [] 0 h2
    exact ⟨h2, g, hg, by rw [hpt, List.length_replicate]⟩

end Locallite
